import Mathlib

/-
Verification of the chess_hybrid repository's core against its design document.

The development shallowly embeds the Python sources:
  src/mcts_core.py        (MCTSNode, MCTS: selection / expansion / backprop, best_move)
  src/stockfish_filter.py (StockfishFilter: eval_board cache, filter_moves)
  src/uci_engine.py       (UCIEngine: go_and_get response parsing, read-until-token loop)

Modelling conventions:
  - Python dicts (insertion ordered) become association lists; dict assignment
    becomes setA (replace-in-place, append when absent), dict .get becomes lookupA.
  - Moves are opaque tokens, modelled as Nat.  Boards are opaque (a type
    parameter); the game-rules library (python-chess) is out of scope per the
    design document, so board predicates (is_game_over, push, rollout value)
    and the Stockfish-filter based move selection are abstract parameters.
  - Python floats carry only small exact values here (0, plus-minus 1, sums
    thereof, centipawn integers); they are modelled as rationals.  math.sqrt is
    modelled as an abstract function, applied identically on both sides of any
    comparison, since only the shape of the scoring formula is at stake.
  - The engine process is modelled by a deterministic score function together
    with a request counter (for cache claims) or a timed line trace (for the
    read-loop claims).
-/

namespace ChessHybrid

/-- Opaque move token. -/
abbrev Move := Nat

/-- Python dict lookup `d.get(k)` on a dict modelled as an association list:
first entry with the key wins. -/
def lookupA {κ α : Type} [DecidableEq κ] : List (κ × α) → κ → Option α
  | [], _ => none
  | (k, v) :: rest, m => if k = m then some v else lookupA rest m

/-- Python dict assignment `d[k] = x`: replace the value in place when the key is
present (keeping insertion order), append at the end otherwise. -/
def setA {κ α : Type} [DecidableEq κ] : List (κ × α) → κ → α → List (κ × α)
  | [], m, x => [(m, x)]
  | (k, v) :: rest, m, x => if k = m then (m, x) :: rest else (k, v) :: setA rest m x

theorem lookupA_setA_self {κ α : Type} [DecidableEq κ] (l : List (κ × α)) (m : κ) (x : α) :
    lookupA (setA l m x) m = some x := by
  induction l with
  | nil => simp [setA, lookupA]
  | cons hd tl ih =>
    obtain ⟨k, v⟩ := hd
    by_cases hk : k = m
    · simp [setA, hk, lookupA]
    · simp [setA, hk, lookupA, ih]

theorem lookupA_setA_ne {κ α : Type} [DecidableEq κ] (l : List (κ × α)) (m m' : κ) (x : α)
    (h : m' ≠ m) : lookupA (setA l m x) m' = lookupA l m' := by
  have hmm : ¬(m = m') := fun he => h he.symm
  induction l with
  | nil => simp [setA, lookupA, hmm]
  | cons hd tl ih =>
    obtain ⟨k, v⟩ := hd
    by_cases hk : k = m
    · subst hk
      simp [setA, lookupA, hmm]
    · simp [setA, hk, lookupA, ih]

theorem setA_of_lookupA_none {κ α : Type} [DecidableEq κ] (l : List (κ × α)) (m : κ) (x : α)
    (h : lookupA l m = none) : setA l m x = l ++ [(m, x)] := by
  induction l with
  | nil => simp [setA]
  | cons hd tl ih =>
    obtain ⟨k, v⟩ := hd
    by_cases hk : k = m
    · simp [lookupA, hk] at h
    · simp [lookupA, hk] at h
      simp [setA, hk, ih h]

theorem sum_map_setA {α : Type} (g : α → Nat) (l : List (Move × α)) (m : Move) (x c : α)
    (h : lookupA l m = some c) :
    ((setA l m x).map (fun p => g p.2)).sum + g c = (l.map (fun p => g p.2)).sum + g x := by
  induction l with
  | nil => simp [lookupA] at h
  | cons hd tl ih =>
    obtain ⟨k, v⟩ := hd
    by_cases hk : k = m
    · simp [lookupA, hk] at h
      subst h
      simp [setA, hk]
      omega
    · simp [lookupA, hk] at h
      simp [setA, hk]
      have := ih h
      omega

/-- One step of Python's `max(..., key=...)`: keep the current maximum, replace
it only when the candidate's key is strictly larger (so the first of several
equal maxima survives). -/
def pyStep {α γ : Type} [LinearOrder γ] (key : α → γ) : Option α → α → Option α
  | none, x => some x
  | some y, x => if key y < key x then some x else some y

/-- Python's `max(l, key=key)` (first maximal element), `none` on `[]`. -/
def pyMax {α γ : Type} [LinearOrder γ] (key : α → γ) (l : List α) : Option α :=
  l.foldl (pyStep key) none

theorem pyMax_fold_spec {α γ : Type} [LinearOrder γ] (key : α → γ) (l : List α) :
    ∀ a : α, ∃ r, l.foldl (pyStep key) (some a) = some r ∧ key a ≤ key r ∧
      (∀ x ∈ l, key x ≤ key r) ∧
      (r = a ∨ ∃ pre post, l = pre ++ r :: post ∧ key a < key r ∧ ∀ x ∈ pre, key x < key r) := by
  induction l with
  | nil =>
    intro a
    exact ⟨a, rfl, le_refl _, by simp, Or.inl rfl⟩
  | cons x l ih =>
    intro a
    by_cases hx : key a < key x
    · obtain ⟨r, hr, hxr, hall, hcase⟩ := ih x
      refine ⟨r, ?_, le_of_lt (lt_of_lt_of_le hx hxr), ?_, ?_⟩
      · simpa [List.foldl_cons, pyStep, hx] using hr
      · intro y hy
        rcases List.mem_cons.mp hy with h | h
        · exact h ▸ hxr
        · exact hall y h
      · rcases hcase with h | ⟨pre, post, hl, hlt, hpre⟩
        · subst h
          exact Or.inr ⟨[], l, by simp, hx, by simp⟩
        · refine Or.inr ⟨x :: pre, post, by simp [hl], lt_of_lt_of_le hx hxr, ?_⟩
          intro y hy
          rcases List.mem_cons.mp hy with h | h
          · exact h ▸ hlt
          · exact hpre y h
    · obtain ⟨r, hr, har, hall, hcase⟩ := ih a
      refine ⟨r, ?_, har, ?_, ?_⟩
      · simpa [List.foldl_cons, pyStep, hx] using hr
      · intro y hy
        rcases List.mem_cons.mp hy with h | h
        · exact h ▸ le_trans (le_of_not_lt hx) har
        · exact hall y h
      · rcases hcase with h | ⟨pre, post, hl, hlt, hpre⟩
        · exact Or.inl h
        · refine Or.inr ⟨x :: pre, post, by simp [hl], hlt, ?_⟩
          intro y hy
          rcases List.mem_cons.mp hy with h | h
          · exact h ▸ lt_of_le_of_lt (le_of_not_lt hx) hlt
          · exact hpre y h

theorem pyMax_spec {α γ : Type} [LinearOrder γ] (key : α → γ) (l : List α) (hl : l ≠ []) :
    ∃ r, pyMax key l = some r ∧ r ∈ l ∧ ∀ x ∈ l, key x ≤ key r := by
  cases l with
  | nil => exact absurd rfl hl
  | cons h tl =>
    obtain ⟨r, hr, hhr, hall, hcase⟩ := pyMax_fold_spec key tl h
    refine ⟨r, ?_, ?_, ?_⟩
    · simpa [pyMax, List.foldl_cons, pyStep] using hr
    · rcases hcase with h' | ⟨pre, post, hl', _, _⟩
      · simp [h']
      · simp [hl']
    · intro x hx
      rcases List.mem_cons.mp hx with h' | h'
      · exact h' ▸ hhr
      · exact hall x h'

/-! ## The search tree (src/mcts_core.py, MCTSNode)

`MCTSNode` carries a board, the visit count `N`, the total value `W`, the
terminal flag, the prior map `P` and the insertion-ordered child map. -/

inductive MCTSNode (β : Type) : Type where
  | mk (board : β) (N : Nat) (W : ℚ) (terminal : Bool)
      (P : List (Move × ℚ)) (children : List (Move × MCTSNode β)) : MCTSNode β

def MCTSNode.board {β : Type} : MCTSNode β → β
  | .mk b _ _ _ _ _ => b

def MCTSNode.N {β : Type} : MCTSNode β → Nat
  | .mk _ n _ _ _ _ => n

def MCTSNode.W {β : Type} : MCTSNode β → ℚ
  | .mk _ _ w _ _ _ => w

def MCTSNode.terminal {β : Type} : MCTSNode β → Bool
  | .mk _ _ _ t _ _ => t

def MCTSNode.P {β : Type} : MCTSNode β → List (Move × ℚ)
  | .mk _ _ _ _ p _ => p

def MCTSNode.children {β : Type} : MCTSNode β → List (Move × MCTSNode β)
  | .mk _ _ _ _ _ c => c

@[simp] theorem MCTSNode.board_mk {β : Type} (b : β) (n w t p c) :
    (MCTSNode.mk b n w t p c).board = b := rfl
@[simp] theorem MCTSNode.N_mk {β : Type} (b : β) (n w t p c) :
    (MCTSNode.mk b n w t p c).N = n := rfl
@[simp] theorem MCTSNode.W_mk {β : Type} (b : β) (n w t p c) :
    (MCTSNode.mk b n w t p c).W = w := rfl
@[simp] theorem MCTSNode.terminal_mk {β : Type} (b : β) (n w t p c) :
    (MCTSNode.mk b n w t p c).terminal = t := rfl
@[simp] theorem MCTSNode.P_mk {β : Type} (b : β) (n w t p c) :
    (MCTSNode.mk b n w t p c).P = p := rfl
@[simp] theorem MCTSNode.children_mk {β : Type} (b : β) (n w t p c) :
    (MCTSNode.mk b n w t p c).children = c := rfl

/-- Source `MCTSNode.Q(mv)` from src/mcts_core.py: mean value of the child for `mv`,
`0.0` when the child does not exist or was never visited. -/
def MCTSNode.Q {β : Type} (t : MCTSNode β) (mv : Move) : ℚ :=
  match lookupA t.children mv with
  | none => 0
  | some child => if child.N = 0 then 0 else child.W / (child.N : ℚ)

/-- Source `MCTSNode.N_move(mv)` from src/mcts_core.py: the child's visit count,
`0` when absent. -/
def MCTSNode.Nmove {β : Type} (t : MCTSNode β) (mv : Move) : Nat :=
  match lookupA t.children mv with
  | none => 0
  | some child => child.N

/-- Prior lookup `priors.get(mv, 0.0)`. -/
def prG (p : List (Move × ℚ)) (mv : Move) : ℚ := (lookupA p mv).getD 0

/-- Source `MCTS._ucb_score` from src/mcts_core.py:
`Q + ucb_c * P * sqrt(max(1, N)) / (1 + N_move)`.
`sq` stands for `math.sqrt`; it is an abstract parameter of the model. -/
def ucb_score {β : Type} (sq : ℚ → ℚ) (ucb_c : ℚ) (t : MCTSNode β) (mv : Move) : ℚ :=
  t.Q mv + ucb_c * prG t.P mv * sq ((max 1 t.N : Nat) : ℚ) / (1 + (t.Nmove mv : ℚ))

/-- As the design document words it: `Q(m)` is child-total-value divided by
child-visit-count, `0` whenever the child for `m` is absent or has visit
count `0`. -/
def specQ {β : Type} (t : MCTSNode β) (mv : Move) : ℚ :=
  match lookupA t.children mv with
  | none => 0
  | some child => if child.N = 0 then 0 else child.W / (child.N : ℚ)

/-- As the design document words it: `N(m)` is the visit count of the child
for `m`, `0` when the child is absent. -/
def specNm {β : Type} (t : MCTSNode β) (mv : Move) : Nat :=
  match lookupA t.children mv with
  | none => 0
  | some child => child.N

/-- C1.  For every node and move, the selection score computed during move
scoring equals `Q(m) + C * P(m) * sqrt(max(1, N_node)) / (1 + N(m))`, where
`Q(m)` is child-total-value over child-visit-count (`0` for an absent or
unvisited child), `P(m)` is the node's stored prior for `m`, `N_node` is the
node's visit count and `N(m)` is `0` when the child is absent. -/
theorem ucb_score_eq_spec_formula {β : Type} (sq : ℚ → ℚ) (ucb_c : ℚ)
    (t : MCTSNode β) (mv : Move) (p : ℚ) (hp : lookupA t.P mv = some p) :
    ucb_score sq ucb_c t mv
      = specQ t mv + ucb_c * p * sq ((max 1 t.N : Nat) : ℚ) / (1 + (specNm t mv : ℚ)) := by
  unfold ucb_score specQ specNm MCTSNode.Q MCTSNode.Nmove prG
  rw [hp]
  rfl

/-- Witness for C1 on a concrete node: one child with 2 visits and total value
1, stored prior 1/2, node visit count 4. -/
theorem ucb_score_eq_spec_formula_witness :
    ucb_score (fun q => q) (3/2)
        (MCTSNode.mk () 4 0 false [(0, 1/2)] [(0, MCTSNode.mk () 2 1 false [] [])]) 0
      = specQ (MCTSNode.mk () 4 0 false [(0, 1/2)]
            [(0, MCTSNode.mk () 2 1 false [] [])]) 0
        + (3/2) * (1/2) * (fun q => q)
            ((max 1 (MCTSNode.mk () 4 0 false [(0, 1/2)]
              [(0, MCTSNode.mk () 2 1 false [] [])]).N : Nat) : ℚ)
        / (1 + ((specNm (MCTSNode.mk () 4 0 false [(0, 1/2)]
              [(0, MCTSNode.mk () 2 1 false [] [])]) 0 : Nat) : ℚ)) :=
  ucb_score_eq_spec_formula (fun q => q) (3/2) _ 0 (1/2) rfl

/-! ## One simulation (src/mcts_core.py, MCTS.run_simulations body)

The selection loop walks down from the root: at a game-over position it sets
the terminal flag and stops; when the filtered selection yields no move it
stops; when the chosen move has no child yet it creates one (the expansion)
and stops; otherwise it descends.  The rollout value of the stopping node is
then backpropagated to the root, adding the running value to `W`, adding 1 to
`N` and negating the running value at every step up.  `simStep` performs the
walk down and the backpropagation in a single functional recursion, returning
the updated tree together with two ghost observations: the simulation's `path`
(moves from the root to the stopping node) and the stop node's rollout value
`leaf`; `run` is the running value as added at the root itself.

The Stockfish-filtered selection `MCTS._select_child_filtered` depends on the
external engine; it enters the model as the abstract function `choose`
(deterministic for a fixed engine, cache and prior provider).  Likewise
`is_game_over`, `push` and `MCTS._rollout_value` are abstract board functions.
The mutation of the stored prior map during selection is irrelevant to visit
counts and values and is not modelled. -/

structure SimOut (β : Type) where
  tree : MCTSNode β
  path : List Move
  run : ℚ
  leaf : ℚ

theorem lookupA_sizeOf_lt {β : Type} {l : List (Move × MCTSNode β)} {m : Move}
    {c : MCTSNode β} (h : lookupA l m = some c) : sizeOf c < sizeOf l := by
  induction l with
  | nil => simp [lookupA] at h
  | cons hd tl ih =>
    obtain ⟨k, v⟩ := hd
    by_cases hk : k = m
    · simp [lookupA, hk] at h
      subst h
      simp
      omega
    · simp [lookupA, hk] at h
      have := ih h
      simp
      omega

theorem children_sizeOf_lt {β : Type} (t : MCTSNode β) : sizeOf t.children < sizeOf t := by
  cases t
  simp [MCTSNode.children]

def simStep {β : Type} (isOver : β → Bool) (push : β → Move → β) (rollout : β → ℚ)
    (choose : MCTSNode β → Option Move) (t : MCTSNode β) : SimOut β :=
  if isOver t.board then
    ⟨.mk t.board (t.N + 1) (t.W + rollout t.board) true t.P t.children,
      [], rollout t.board, rollout t.board⟩
  else
    match choose t with
    | none =>
      ⟨.mk t.board (t.N + 1) (t.W + rollout t.board) t.terminal t.P t.children,
        [], rollout t.board, rollout t.board⟩
    | some mv =>
      match hlk : lookupA t.children mv with
      | none =>
        let b2 := push t.board mv
        let v := rollout b2
        ⟨.mk t.board (t.N + 1) (t.W + -v) t.terminal t.P
            (setA t.children mv (.mk b2 1 v false [] [])),
          [mv], -v, v⟩
      | some c =>
        let r := simStep isOver push rollout choose c
        ⟨.mk t.board (t.N + 1) (t.W + -r.run) t.terminal t.P
            (setA t.children mv r.tree),
          mv :: r.path, -r.run, r.leaf⟩
termination_by sizeOf t
decreasing_by
  exact lt_trans (lookupA_sizeOf_lt hlk) (children_sizeOf_lt t)

section SimLemmas

variable {β : Type} (isOver : β → Bool) (push : β → Move → β) (rollout : β → ℚ)
variable (choose : MCTSNode β → Option Move)

theorem simStep_over (t : MCTSNode β) (h : isOver t.board = true) :
    simStep isOver push rollout choose t
      = ⟨.mk t.board (t.N + 1) (t.W + rollout t.board) true t.P t.children,
          [], rollout t.board, rollout t.board⟩ := by
  rw [simStep]
  simp [h]

theorem simStep_noMove (t : MCTSNode β) (h : isOver t.board = false)
    (hc : choose t = none) :
    simStep isOver push rollout choose t
      = ⟨.mk t.board (t.N + 1) (t.W + rollout t.board) t.terminal t.P t.children,
          [], rollout t.board, rollout t.board⟩ := by
  rw [simStep]
  simp [h, hc]

theorem simStep_new (t : MCTSNode β) (mv : Move) (h : isOver t.board = false)
    (hc : choose t = some mv) (hlk : lookupA t.children mv = none) :
    simStep isOver push rollout choose t
      = ⟨.mk t.board (t.N + 1) (t.W + -(rollout (push t.board mv))) t.terminal t.P
            (setA t.children mv (.mk (push t.board mv) 1 (rollout (push t.board mv)) false [] [])),
          [mv], -(rollout (push t.board mv)), rollout (push t.board mv)⟩ := by
  rw [simStep]
  simp only [h, Bool.false_eq_true, if_false, hc]
  split
  · rfl
  · rename_i c' heq
    rw [hlk] at heq
    exact absurd heq (by simp)

theorem simStep_descend (t : MCTSNode β) (mv : Move) (c : MCTSNode β)
    (h : isOver t.board = false) (hc : choose t = some mv)
    (hlk : lookupA t.children mv = some c) :
    simStep isOver push rollout choose t
      = ⟨.mk t.board (t.N + 1)
            (t.W + -(simStep isOver push rollout choose c).run) t.terminal t.P
            (setA t.children mv (simStep isOver push rollout choose c).tree),
          mv :: (simStep isOver push rollout choose c).path,
          -(simStep isOver push rollout choose c).run,
          (simStep isOver push rollout choose c).leaf⟩ := by
  rw [simStep]
  simp only [h, Bool.false_eq_true, if_false, hc]
  split
  · rename_i heq
    rw [hlk] at heq
    exact absurd heq (by simp)
  · rename_i c' heq
    rw [hlk] at heq
    cases heq
    rfl

end SimLemmas

/-! ## Addressing nodes by their move path from the root -/

/-- Follow a move path down the child maps. -/
def getNode {β : Type} : List Move → MCTSNode β → Option (MCTSNode β)
  | [], t => some t
  | m :: q, t =>
    match lookupA t.children m with
    | none => none
    | some c => getNode q c

/-- Visit count of the node addressed by `q` (0 when no such node exists). -/
def visitsAt {β : Type} (t : MCTSNode β) (q : List Move) : Nat :=
  match getNode q t with
  | none => 0
  | some u => u.N

/-- Total value of the node addressed by `q` (0 when no such node exists). -/
def totalAt {β : Type} (t : MCTSNode β) (q : List Move) : ℚ :=
  match getNode q t with
  | none => 0
  | some u => u.W

/-- Sum of the visit counts over the root's direct children. -/
def childVisitSum {β : Type} (t : MCTSNode β) : Nat :=
  (t.children.map (fun p => p.2.N)).sum

@[simp] theorem visitsAt_nil {β : Type} (t : MCTSNode β) : visitsAt t [] = t.N := rfl

@[simp] theorem totalAt_nil {β : Type} (t : MCTSNode β) : totalAt t [] = t.W := rfl

theorem visitsAt_cons {β : Type} (t : MCTSNode β) (m : Move) (q : List Move) :
    visitsAt t (m :: q) =
      match lookupA t.children m with
      | none => 0
      | some c => visitsAt c q := by
  cases hl : lookupA t.children m with
  | none => simp [visitsAt, getNode, hl]
  | some c => simp [visitsAt, getNode, hl]

theorem totalAt_cons {β : Type} (t : MCTSNode β) (m : Move) (q : List Move) :
    totalAt t (m :: q) =
      match lookupA t.children m with
      | none => 0
      | some c => totalAt c q := by
  cases hl : lookupA t.children m with
  | none => simp [totalAt, getNode, hl]
  | some c => simp [totalAt, getNode, hl]

theorem cons_pref {a : Move} {l₁ l₂ : List Move} :
    (a :: l₁ <+: a :: l₂) ↔ (l₁ <+: l₂) := by
  constructor
  · rintro ⟨r, hr⟩
    exact ⟨r, by simpa using hr⟩
  · rintro ⟨r, hr⟩
    exact ⟨r, by simp [hr]⟩

theorem cons_pref_ne {a b : Move} {l₁ l₂ : List Move} (h : a ≠ b) :
    ¬(a :: l₁ <+: b :: l₂) := by
  rintro ⟨r, hr⟩
  simp at hr
  exact h hr.1

theorem cons_not_pref_nil {a : Move} {l : List Move} : ¬(a :: l <+: ([] : List Move)) := by
  rintro ⟨r, hr⟩
  simp at hr

section SimStepFacts

variable {β : Type} (isOver : β → Bool) (push : β → Move → β) (rollout : β → ℚ)
variable (choose : MCTSNode β → Option Move)

/-- Every simulation adds exactly 1 to the visit count of every node on its
path (prefixes of `path`) and leaves every other node's visit count alone. -/
theorem visitsAt_simStep (q : List Move) (t : MCTSNode β) :
    visitsAt (simStep isOver push rollout choose t).tree q
      = visitsAt t q
        + (if q <+: (simStep isOver push rollout choose t).path then 1 else 0) := by
  induction q generalizing t with
  | nil =>
    have hpre : ([] : List Move) <+: (simStep isOver push rollout choose t).path :=
      ⟨_, rfl⟩
    rcases hov : isOver t.board with _ | _
    · rcases hch : choose t with _ | mv
      · rw [simStep_noMove isOver push rollout choose t hov hch]
        simp [hpre, simStep_noMove isOver push rollout choose t hov hch]
      · rcases hlk : lookupA t.children mv with _ | c
        · rw [simStep_new isOver push rollout choose t mv hov hch hlk]
          simp [simStep_new isOver push rollout choose t mv hov hch hlk]
        · rw [simStep_descend isOver push rollout choose t mv c hov hch hlk]
          simp [simStep_descend isOver push rollout choose t mv c hov hch hlk]
    · rw [simStep_over isOver push rollout choose t hov]
      simp [simStep_over isOver push rollout choose t hov]
  | cons m q ih =>
    rcases hov : isOver t.board with _ | _
    · rcases hch : choose t with _ | mv
      · rw [simStep_noMove isOver push rollout choose t hov hch]
        simp only [visitsAt_cons, MCTSNode.children_mk,
          simStep_noMove isOver push rollout choose t hov hch]
        simp [cons_not_pref_nil]
      · rcases hlk : lookupA t.children mv with _ | c
        · rw [simStep_new isOver push rollout choose t mv hov hch hlk]
          simp only [visitsAt_cons, MCTSNode.children_mk,
            simStep_new isOver push rollout choose t mv hov hch hlk]
          by_cases hm : m = mv
          · subst hm
            rw [lookupA_setA_self, hlk]
            cases q with
            | nil =>
              have hp : [m] <+: [m] := ⟨[], rfl⟩
              simp [visitsAt_nil, hp]
            | cons m' q' =>
              have : ¬(m :: m' :: q' <+: [m]) := by
                rintro ⟨r, hr⟩
                simp at hr
              simp [this, visitsAt_cons, lookupA]
          · rw [lookupA_setA_ne _ _ _ _ hm]
            simp [cons_pref_ne hm]
        · rw [simStep_descend isOver push rollout choose t mv c hov hch hlk]
          simp only [visitsAt_cons, MCTSNode.children_mk,
            simStep_descend isOver push rollout choose t mv c hov hch hlk]
          by_cases hm : m = mv
          · subst hm
            rw [lookupA_setA_self, hlk]
            simp only [ih c, cons_pref]
          · rw [lookupA_setA_ne _ _ _ _ hm]
            simp [cons_pref_ne hm]
    · rw [simStep_over isOver push rollout choose t hov]
      simp only [visitsAt_cons, MCTSNode.children_mk,
        simStep_over isOver push rollout choose t hov]
      simp [cons_not_pref_nil]

/-- Every simulation adds `run * (-1)^d` to the total value of the node at
depth `d` on its path, where `run` is the value added at the root, and leaves
every other node's total value alone. -/
theorem totalAt_simStep (q : List Move) (t : MCTSNode β) :
    totalAt (simStep isOver push rollout choose t).tree q
      = totalAt t q
        + (if q <+: (simStep isOver push rollout choose t).path
            then (simStep isOver push rollout choose t).run * (-1 : ℚ) ^ q.length
            else 0) := by
  induction q generalizing t with
  | nil =>
    have hpre : ([] : List Move) <+: (simStep isOver push rollout choose t).path :=
      ⟨_, rfl⟩
    rcases hov : isOver t.board with _ | _
    · rcases hch : choose t with _ | mv
      · rw [simStep_noMove isOver push rollout choose t hov hch]
        simp [hpre, simStep_noMove isOver push rollout choose t hov hch]
      · rcases hlk : lookupA t.children mv with _ | c
        · rw [simStep_new isOver push rollout choose t mv hov hch hlk]
          simp [simStep_new isOver push rollout choose t mv hov hch hlk]
        · rw [simStep_descend isOver push rollout choose t mv c hov hch hlk]
          simp [simStep_descend isOver push rollout choose t mv c hov hch hlk]
    · rw [simStep_over isOver push rollout choose t hov]
      simp [simStep_over isOver push rollout choose t hov]
  | cons m q ih =>
    rcases hov : isOver t.board with _ | _
    · rcases hch : choose t with _ | mv
      · rw [simStep_noMove isOver push rollout choose t hov hch]
        simp only [totalAt_cons, MCTSNode.children_mk,
          simStep_noMove isOver push rollout choose t hov hch]
        simp [cons_not_pref_nil]
      · rcases hlk : lookupA t.children mv with _ | c
        · rw [simStep_new isOver push rollout choose t mv hov hch hlk]
          simp only [totalAt_cons, MCTSNode.children_mk,
            simStep_new isOver push rollout choose t mv hov hch hlk]
          by_cases hm : m = mv
          · subst hm
            rw [lookupA_setA_self, hlk]
            cases q with
            | nil =>
              have hp : [m] <+: [m] := ⟨[], rfl⟩
              simp [totalAt_nil, hp, pow_succ]
            | cons m' q' =>
              have hnp : ¬(m :: m' :: q' <+: [m]) := by
                rintro ⟨r, hr⟩
                simp at hr
              simp [hnp, totalAt_cons, lookupA]
          · rw [lookupA_setA_ne _ _ _ _ hm]
            simp [cons_pref_ne hm]
        · rw [simStep_descend isOver push rollout choose t mv c hov hch hlk]
          simp only [totalAt_cons, MCTSNode.children_mk,
            simStep_descend isOver push rollout choose t mv c hov hch hlk]
          by_cases hm : m = mv
          · subst hm
            rw [lookupA_setA_self, hlk]
            simp only [ih c, cons_pref, List.length_cons, pow_succ]
            by_cases hq : q <+: (simStep isOver push rollout choose c).path
            · simp only [hq, if_true]
              ring
            · simp [hq]
          · rw [lookupA_setA_ne _ _ _ _ hm]
            simp [cons_pref_ne hm]
    · rw [simStep_over isOver push rollout choose t hov]
      simp only [totalAt_cons, MCTSNode.children_mk,
        simStep_over isOver push rollout choose t hov]
      simp [cons_not_pref_nil]

/-- Each simulation increments the root's visit count by exactly 1. -/
theorem simStep_N (t : MCTSNode β) :
    (simStep isOver push rollout choose t).tree.N = t.N + 1 := by
  have hpre : ([] : List Move) <+: (simStep isOver push rollout choose t).path :=
    ⟨_, rfl⟩
  have h := visitsAt_simStep isOver push rollout choose [] t
  simpa [hpre] using h

/-- The running value added at the root equals the stop node's rollout value
times `(-1)` to the stopping depth. -/
theorem run_eq_aux :
    ∀ (n : ℕ) (t : MCTSNode β), sizeOf t ≤ n →
      (simStep isOver push rollout choose t).run
        = (simStep isOver push rollout choose t).leaf
          * (-1 : ℚ) ^ (simStep isOver push rollout choose t).path.length := by
  intro n
  induction n with
  | zero =>
    intro t hle
    exfalso
    cases t
    simp at hle
  | succ n ih =>
    intro t hle
    rcases hov : isOver t.board with _ | _
    · rcases hch : choose t with _ | mv
      · rw [simStep_noMove isOver push rollout choose t hov hch]
        simp
      · rcases hlk : lookupA t.children mv with _ | c
        · rw [simStep_new isOver push rollout choose t mv hov hch hlk]
          simp [pow_succ]
        · rw [simStep_descend isOver push rollout choose t mv c hov hch hlk]
          have hc : sizeOf c ≤ n := by
            have h1 := lookupA_sizeOf_lt hlk
            have h2 := children_sizeOf_lt t
            omega
          simp only [List.length_cons, pow_succ]
          rw [ih c hc]
          ring
    · rw [simStep_over isOver push rollout choose t hov]
      simp

theorem run_eq (t : MCTSNode β) :
    (simStep isOver push rollout choose t).run
      = (simStep isOver push rollout choose t).leaf
        * (-1 : ℚ) ^ (simStep isOver push rollout choose t).path.length :=
  run_eq_aux isOver push rollout choose (sizeOf t) t le_rfl

/-- Each simulation adds 1 to the visit count of exactly one direct child of
the root, unless it stops at the root itself (empty path). -/
theorem childVisitSum_simStep (t : MCTSNode β) :
    childVisitSum (simStep isOver push rollout choose t).tree
      = childVisitSum t
        + (if (simStep isOver push rollout choose t).path = [] then 0 else 1) := by
  rcases hov : isOver t.board with _ | _
  · rcases hch : choose t with _ | mv
    · rw [simStep_noMove isOver push rollout choose t hov hch]
      simp [childVisitSum]
    · rcases hlk : lookupA t.children mv with _ | c
      · rw [simStep_new isOver push rollout choose t mv hov hch hlk]
        simp only [childVisitSum, MCTSNode.children_mk]
        rw [setA_of_lookupA_none _ _ _ hlk]
        simp
      · rw [simStep_descend isOver push rollout choose t mv c hov hch hlk]
        simp only [childVisitSum, MCTSNode.children_mk]
        have hsum := sum_map_setA MCTSNode.N t.children mv
          (simStep isOver push rollout choose c).tree c hlk
        have hN := simStep_N isOver push rollout choose c
        simp only [hN] at hsum
        simp
        omega
  · rw [simStep_over isOver push rollout choose t hov]
    simp [childVisitSum]

end SimStepFacts

/-- Source `MCTS.run_simulations(root, n_sim)`: `n` sequential simulations. -/
def run_simulations {β : Type} (isOver : β → Bool) (push : β → Move → β) (rollout : β → ℚ)
    (choose : MCTSNode β → Option Move) (t : MCTSNode β) : Nat → MCTSNode β
  | 0 => t
  | n + 1 => (simStep isOver push rollout choose
      (run_simulations isOver push rollout choose t n)).tree

/-- A root as created for a fresh top-level search: no visits, no value,
no children, no priors, not terminal. -/
def freshRoot {β : Type} (b : β) : MCTSNode β := .mk b 0 0 false [] []

section RunFacts

variable {β : Type} (isOver : β → Bool) (push : β → Move → β) (rollout : β → ℚ)
variable (choose : MCTSNode β → Option Move)

theorem visitsAt_freshRoot (b : β) (q : List Move) : visitsAt (freshRoot b) q = 0 := by
  cases q with
  | nil => simp [freshRoot]
  | cons m q => simp [visitsAt_cons, freshRoot, lookupA]

theorem visitsAt_run (b : β) (n : Nat) (q : List Move) :
    visitsAt (run_simulations isOver push rollout choose (freshRoot b) n) q
      = ((Finset.range n).filter (fun i =>
          q <+: (simStep isOver push rollout choose
            (run_simulations isOver push rollout choose (freshRoot b) i)).path)).card := by
  induction n with
  | zero => simp [run_simulations, visitsAt_freshRoot]
  | succ n ih =>
    rw [run_simulations,
      visitsAt_simStep isOver push rollout choose q
        (run_simulations isOver push rollout choose (freshRoot b) n),
      ih, Finset.range_succ, Finset.filter_insert]
    by_cases hp : q <+: (simStep isOver push rollout choose
        (run_simulations isOver push rollout choose (freshRoot b) n)).path
    · rw [if_pos hp, if_pos hp, Finset.card_insert_of_not_mem (by simp)]
    · rw [if_neg hp, if_neg hp]
      simp

theorem rootN_run (b : β) (n : Nat) :
    (run_simulations isOver push rollout choose (freshRoot b) n).N
      = childVisitSum (run_simulations isOver push rollout choose (freshRoot b) n)
        + ((Finset.range n).filter (fun i =>
            (simStep isOver push rollout choose
              (run_simulations isOver push rollout choose (freshRoot b) i)).path = [])).card := by
  induction n with
  | zero => simp [run_simulations, freshRoot, childVisitSum]
  | succ n ih =>
    rw [run_simulations,
      simStep_N isOver push rollout choose,
      childVisitSum_simStep isOver push rollout choose,
      Finset.range_succ, Finset.filter_insert]
    by_cases hp : (simStep isOver push rollout choose
        (run_simulations isOver push rollout choose (freshRoot b) n)).path = []
    · rw [if_pos hp, if_pos hp, Finset.card_insert_of_not_mem (by simp)]
      omega
    · rw [if_neg hp, if_neg hp]
      omega

end RunFacts

/-- C2 (amended).  After `run_simulations` of `n` simulations on a fresh
root, (a) every node's visit count equals the number of simulations whose
selection/backpropagation path passed through that node, and (b) the sum of
the direct children's visit counts plus the NUMBER of simulations that
stopped exactly at the root equals the root's visit count.  (The original
claim's "+ 1 if any simulation stopped exactly at root" is replaced by that
count, which is what the code produces.) -/
theorem visit_count_conservation {β : Type} (isOver : β → Bool) (push : β → Move → β)
    (rollout : β → ℚ) (choose : MCTSNode β → Option Move) (b : β) (n : Nat) (q : List Move) :
    visitsAt (run_simulations isOver push rollout choose (freshRoot b) n) q
      = ((Finset.range n).filter (fun i =>
          q <+: (simStep isOver push rollout choose
            (run_simulations isOver push rollout choose (freshRoot b) i)).path)).card
    ∧ (run_simulations isOver push rollout choose (freshRoot b) n).N
      = childVisitSum (run_simulations isOver push rollout choose (freshRoot b) n)
        + ((Finset.range n).filter (fun i =>
            (simStep isOver push rollout choose
              (run_simulations isOver push rollout choose (freshRoot b) i)).path = [])).card :=
  ⟨visitsAt_run isOver push rollout choose b n q,
   rootN_run isOver push rollout choose b n⟩

/-! Concrete trivial games over the `Unit` board, used to evaluate the model
on explicit inputs. -/

/-- A game whose every position is terminal (e.g. the root is a checkmate). -/
def uIsOverT : Unit → Bool := fun _ => true

/-- A game whose positions are never terminal. -/
def uIsOverF : Unit → Bool := fun _ => false

def uPush : Unit → Move → Unit := fun _ _ => ()

/-- Rollout that always yields 0 (a draw, or the non-terminal placeholder). -/
def uRollZero : Unit → ℚ := fun _ => 0

/-- Rollout that always yields -1 (the side to move at the stop node is
checkmated). -/
def uRollNeg : Unit → ℚ := fun _ => -1

/-- Selection that never returns a move (everything filtered away). -/
def uChooseNone : MCTSNode Unit → Option Move := fun _ => none

/-- Selection that always proposes move `0`. -/
def uChoose0 : MCTSNode Unit → Option Move := fun _ => some 0

/-- C2 (counterexample to the claim as stated).  On a terminal root with
`n = 2` simulations, both simulations stop exactly at the root, the root's
visit count is 2 and the children's visit counts sum to 0, so the claimed
equation "children sum + (1 if any simulation stopped at root) = root count"
fails: 2 does not equal 0 + 1. -/
theorem visit_count_conservation_cex :
    (run_simulations uIsOverT uPush uRollZero uChooseNone (freshRoot ()) 2).N
        ≠ childVisitSum (run_simulations uIsOverT uPush uRollZero uChooseNone (freshRoot ()) 2)
          + (if ∃ i ∈ Finset.range 2,
                (simStep uIsOverT uPush uRollZero uChooseNone
                  (run_simulations uIsOverT uPush uRollZero uChooseNone (freshRoot ()) i)).path
                  = []
              then 1 else 0) := by
  have h0 : simStep uIsOverT uPush uRollZero uChooseNone (freshRoot ())
      = ⟨.mk () 1 0 true [] [], [], 0, 0⟩ := by
    rw [simStep_over uIsOverT uPush uRollZero uChooseNone (freshRoot ()) rfl]
    simp [freshRoot, uRollZero]
  have h1 : simStep uIsOverT uPush uRollZero uChooseNone (MCTSNode.mk () 1 0 true [] [])
      = ⟨.mk () 2 0 true [] [], [], 0, 0⟩ := by
    rw [simStep_over uIsOverT uPush uRollZero uChooseNone (MCTSNode.mk () 1 0 true [] []) rfl]
    simp [uRollZero]
  have hrun1 : run_simulations uIsOverT uPush uRollZero uChooseNone (freshRoot ()) 1
      = MCTSNode.mk () 1 0 true [] [] := by
    rw [run_simulations, run_simulations, h0]
  have hrun2 : run_simulations uIsOverT uPush uRollZero uChooseNone (freshRoot ()) 2
      = MCTSNode.mk () 2 0 true [] [] := by
    rw [run_simulations, hrun1, h1]
  rw [hrun2]
  have hex : ∃ i ∈ Finset.range 2,
      (simStep uIsOverT uPush uRollZero uChooseNone
        (run_simulations uIsOverT uPush uRollZero uChooseNone (freshRoot ()) i)).path = [] := by
    refine ⟨0, by simp, ?_⟩
    rw [run_simulations, h0]
  rw [if_pos hex]
  simp [childVisitSum]

/-- C3 (amended).  For any simulation with leaf value `v` stopping at depth
`D` (the length of its path), the contribution added to the total value of
the node at depth `d` on the path is `v * (-1)^(D - d)`, and each such node's
visit count is incremented by exactly 1.  (The original claim's exponent `d`
is replaced by `D - d`: the sign alternation starts at the stop node, not at
the root.) -/
theorem backprop_contribution {β : Type} (isOver : β → Bool) (push : β → Move → β)
    (rollout : β → ℚ) (choose : MCTSNode β → Option Move) (t : MCTSNode β) (q : List Move)
    (h : q <+: (simStep isOver push rollout choose t).path) :
    totalAt (simStep isOver push rollout choose t).tree q
      = totalAt t q
        + (simStep isOver push rollout choose t).leaf
          * (-1 : ℚ) ^ ((simStep isOver push rollout choose t).path.length - q.length)
    ∧ visitsAt (simStep isOver push rollout choose t).tree q = visitsAt t q + 1 := by
  have hlen : q.length ≤ (simStep isOver push rollout choose t).path.length := by
    obtain ⟨r, hr⟩ := h
    rw [← hr]
    simp
  constructor
  · rw [totalAt_simStep isOver push rollout choose q t, if_pos h,
      run_eq isOver push rollout choose t]
    have hpow : (-1 : ℚ) ^ (simStep isOver push rollout choose t).path.length
          * (-1 : ℚ) ^ q.length
        = (-1 : ℚ) ^ ((simStep isOver push rollout choose t).path.length - q.length) := by
      rw [← pow_add]
      have : (simStep isOver push rollout choose t).path.length + q.length
          = ((simStep isOver push rollout choose t).path.length - q.length) + 2 * q.length := by
        omega
      rw [this, pow_add, pow_mul]
      simp
    rw [mul_assoc, hpow]
  · rw [visitsAt_simStep isOver push rollout choose q t, if_pos h]

/-- Witness for C3 (amended) at a concrete input: a non-terminal root whose
move 0 leads to a lost (checkmated) child; the simulation expands the child
(depth 1, leaf value -1) and the root at depth 0 receives `-1 * (-1)^1 = 1`. -/
theorem backprop_contribution_witness :
    (totalAt (simStep uIsOverF uPush uRollNeg uChoose0 (freshRoot ())).tree []
        = totalAt (freshRoot ()) []
          + (simStep uIsOverF uPush uRollNeg uChoose0 (freshRoot ())).leaf
            * (-1 : ℚ) ^ ((simStep uIsOverF uPush uRollNeg uChoose0
                (freshRoot ())).path.length - ([] : List Move).length)
      ∧ visitsAt (simStep uIsOverF uPush uRollNeg uChoose0 (freshRoot ())).tree []
        = visitsAt (freshRoot ()) [] + 1) :=
  backprop_contribution uIsOverF uPush uRollNeg uChoose0 (freshRoot ()) []
    ⟨_, rfl⟩

/-- C3 (counterexample to the claim as stated).  Same scenario: the stop node
is at depth 1 with leaf value -1; the root (depth 0) receives +1, but the
claim's formula `v * (-1)^d` predicts `-1 * (-1)^0 = -1`. -/
theorem backprop_contribution_cex :
    ¬ (totalAt (simStep uIsOverF uPush uRollNeg uChoose0 (freshRoot ())).tree []
        = totalAt (freshRoot ()) []
          + (simStep uIsOverF uPush uRollNeg uChoose0 (freshRoot ())).leaf
            * (-1 : ℚ) ^ (([] : List Move).length)) := by
  have h0 : simStep uIsOverF uPush uRollNeg uChoose0 (freshRoot ())
      = ⟨.mk () 1 1 false [] [(0, .mk () 1 (-1) false [] [])], [0], 1, -1⟩ := by
    rw [simStep_new uIsOverF uPush uRollNeg uChoose0 (freshRoot ()) 0 rfl rfl
      (by simp [freshRoot, lookupA])]
    simp [freshRoot, uRollNeg, uPush, setA]
  rw [h0]
  simp [freshRoot, totalAt_nil]
  norm_num

/-! ## Final decision (src/mcts_core.py, MCTS.best_move) -/

/-- Source `MCTS.best_move`: `None` without children, otherwise the key of
`max(children.items(), key=visit count)` — Python's `max` returns the first
maximal item in iteration (= insertion) order. -/
def best_move {β : Type} (t : MCTSNode β) : Option Move :=
  match t.children with
  | [] => none
  | _ => (pyMax (fun kv : Move × MCTSNode β => kv.2.N) t.children).map Prod.fst

/-- C6.  `best_move` returns `none` exactly when the root has no children;
otherwise it returns the move of a child with the largest visit count, and
among ties the first-inserted one: every earlier child has a strictly smaller
visit count. -/
theorem best_move_spec {β : Type} (t : MCTSNode β) :
    (best_move t = none ↔ t.children = []) ∧
    ∀ m, best_move t = some m →
      ∃ pre c post, t.children = pre ++ (m, c) :: post ∧
        (∀ x ∈ pre, x.2.N < c.N) ∧ (∀ x ∈ t.children, x.2.N ≤ c.N) := by
  rcases hch : t.children with _ | ⟨hd, tl⟩
  · constructor
    · simp [best_move, hch]
    · intro m hm
      rw [best_move, hch] at hm
      simp at hm
  · obtain ⟨r, hr, hhd, hall, hcase⟩ :=
      pyMax_fold_spec (fun kv : Move × MCTSNode β => kv.2.N) tl hd
    have hbm : best_move t = some r.1 := by
      rw [best_move, hch]
      simp only [pyMax, List.foldl_cons, pyStep]
      rw [hr]
      rfl
    constructor
    · constructor
      · intro h
        rw [hbm] at h
        simp at h
      · intro h
        simp at h
    · intro m hm
      rw [hbm] at hm
      obtain rfl : r.1 = m := Option.some.inj hm
      obtain ⟨rm, rc⟩ := r
      rcases hcase with hr' | ⟨pre, post, htl, hlt, hpre⟩
      · refine ⟨[], rc, tl, ?_, by simp, ?_⟩
        · rw [← hr']
          simp
        · intro x hx
          rcases List.mem_cons.mp hx with h | h
          · exact h ▸ hhd
          · exact hall x h
      · refine ⟨hd :: pre, rc, post, ?_, ?_, ?_⟩
        · rw [htl]
          simp
        · intro x hx
          rcases List.mem_cons.mp hx with h | h
          · exact h ▸ hlt
          · exact hpre x h
        · intro x hx
          rcases List.mem_cons.mp hx with h | h
          · exact h ▸ le_of_lt hlt
          · exact hall x h

/-- A root with children visit counts `{a: 10, b: 7, c: 10}` (tie between the
first and the last child). -/
def tieRoot : MCTSNode Unit :=
  .mk () 27 0 false []
    [(0, .mk () 10 0 false [] []), (1, .mk () 7 0 false [] []), (2, .mk () 10 0 false [] [])]

/-- Witness for C6 on the tie scenario from the design document: among the
visit counts 10, 7, 10 the FIRST-inserted maximum (move 0) is returned. -/
theorem best_move_spec_witness :
    ∃ pre c post, tieRoot.children = pre ++ ((0 : Move), c) :: post ∧
      (∀ x ∈ pre, x.2.N < c.N) ∧ (∀ x ∈ tieRoot.children, x.2.N ≤ c.N) :=
  (best_move_spec tieRoot).2 0 (by decide)

/-! ## The Stockfish filter (src/stockfish_filter.py)

For `filter_moves` the position is fixed, so the per-move evaluation
`eval_board(board.push(mv))` is modelled by an abstract deterministic score
function `ev : Move → ℤ` (the engine is deterministic at fixed depth and the
cache preserves its answers; see `eval_board` below for the cache itself). -/

/-- The candidate ordering inside `filter_moves`: by descending prior when a
prior map is given (Python's `sorted(..., reverse=True)` is a stable
descending sort), the caller's order otherwise. -/
def orderCands (cands : List Move) (priors : List (Move × ℚ)) : List Move :=
  if priors = [] then cands
  else cands.mergeSort (fun a b => decide (prG priors b ≤ prG priors a))

/-- The scored list built by the `for mv in ordered[:top_k]` loop; its length
is the number of `eval_board` calls `filter_moves` performs. -/
def scoredOf (top_k : Nat) (ev : Move → ℤ) (cands : List Move)
    (priors : List (Move × ℚ)) : List (Move × ℤ) :=
  ((orderCands cands priors).take top_k).map (fun mv => (mv, ev mv))

/-- The number of evaluator calls performed by `filter_moves`. -/
def evalCallsOf (top_k : Nat) (cands : List Move) (priors : List (Move × ℚ)) : Nat :=
  ((orderCands cands priors).take top_k).length

/-- Source `StockfishFilter.filter_moves`: keep the scored candidates with score at
least `threshold_cp`; when nothing is kept but something was scored, fall
back to the single best-scored candidate (Python `max`: first maximum). -/
def filter_moves (threshold_cp : ℤ) (top_k : Nat) (ev : Move → ℤ)
    (cands : List Move) (priors : List (Move × ℚ)) : List Move :=
  let scored := scoredOf top_k ev cands priors
  let kept := (scored.filter (fun p => threshold_cp ≤ p.2)).map Prod.fst
  if kept = [] ∧ scored ≠ [] then
    match pyMax (fun p : Move × ℤ => p.2) scored with
    | some p => [p.1]
    | none => []
  else kept

theorem scoredOf_length (top_k : Nat) (ev : Move → ℤ) (cands : List Move)
    (priors : List (Move × ℚ)) :
    (scoredOf top_k ev cands priors).length = evalCallsOf top_k cands priors := by
  simp [scoredOf, evalCallsOf]

theorem orderCands_length (cands : List Move) (priors : List (Move × ℚ)) :
    (orderCands cands priors).length = cands.length := by
  unfold orderCands
  split
  · rfl
  · exact List.length_mergeSort cands

/-- C4 (counterexample to the claim as stated).  With `top_k = 0` no
candidate is ever scored, so `filter_moves` returns the empty list even on a
non-empty candidate list. -/
theorem filter_moves_nonempty_cex :
    filter_moves 0 0 (fun _ => 0) [0] [] = [] ∧ ([0] : List Move) ≠ [] := by
  constructor
  · rfl
  · simp

/-- C4 (amended).  Provided `top_k ≥ 1`, `filter_moves` on a non-empty
candidate list returns a non-empty list; and whenever every scored candidate
is below the threshold while at least one candidate was scored, the result is
exactly one maximally-scored candidate. -/
theorem filter_moves_nonempty (threshold_cp : ℤ) (top_k : Nat) (ev : Move → ℤ)
    (cands : List Move) (priors : List (Move × ℚ))
    (hk : 1 ≤ top_k) (hc : cands ≠ []) :
    filter_moves threshold_cp top_k ev cands priors ≠ [] ∧
    ((∀ p ∈ scoredOf top_k ev cands priors, p.2 < threshold_cp) →
      ∃ p ∈ scoredOf top_k ev cands priors,
        filter_moves threshold_cp top_k ev cands priors = [p.1] ∧
        ∀ q ∈ scoredOf top_k ev cands priors, q.2 ≤ p.2) := by
  have hslen : (scoredOf top_k ev cands priors).length
      = min top_k cands.length := by
    rw [scoredOf_length]
    unfold evalCallsOf
    rw [List.length_take, orderCands_length]
  have hsne : scoredOf top_k ev cands priors ≠ [] := by
    intro hnil
    rw [hnil] at hslen
    have : cands.length ≠ 0 := fun h0 => hc (List.length_eq_zero.mp h0)
    simp at hslen
    omega
  constructor
  · intro hres
    unfold filter_moves at hres
    by_cases hkept : ((scoredOf top_k ev cands priors).filter
        (fun p => threshold_cp ≤ p.2)).map Prod.fst = []
    · rw [if_pos ⟨hkept, hsne⟩] at hres
      obtain ⟨p, hp, _, _⟩ := pyMax_spec (fun p : Move × ℤ => p.2) _ hsne
      rw [hp] at hres
      simp at hres
    · rw [if_neg (fun hand => hkept hand.1)] at hres
      exact hkept hres
  · intro hbelow
    have hkept : ((scoredOf top_k ev cands priors).filter
        (fun p => threshold_cp ≤ p.2)).map Prod.fst = [] := by
      rw [List.map_eq_nil_iff, List.filter_eq_nil_iff]
      intro p hp
      simpa using not_le.mpr (hbelow p hp)
    obtain ⟨p, hp, hpm, hmax⟩ := pyMax_spec (fun p : Move × ℤ => p.2) _ hsne
    refine ⟨p, hpm, ?_, hmax⟩
    unfold filter_moves
    rw [if_pos ⟨hkept, hsne⟩, hp]

/-- Witness for C4 (amended): one candidate scoring -5 against threshold 0
with `top_k = 1`; the fallback returns it. -/
theorem filter_moves_nonempty_witness :
    filter_moves 0 1 (fun _ => -5) [0] [] ≠ [] ∧
    ∃ p ∈ scoredOf 1 (fun _ => -5) [0] [],
      filter_moves 0 1 (fun _ => -5) [0] [] = [p.1] ∧
      ∀ q ∈ scoredOf 1 (fun _ => -5) [0] [], q.2 ≤ p.2 :=
  ⟨(filter_moves_nonempty 0 1 (fun _ => -5) [0] [] (by decide) (by decide)).1,
   (filter_moves_nonempty 0 1 (fun _ => -5) [0] [] (by decide) (by decide)).2
     (by decide)⟩

theorem filter_length_mono {α : Type} (p q : α → Bool) (l : List α)
    (h : ∀ x, p x = true → q x = true) :
    (l.filter p).length ≤ (l.filter q).length := by
  induction l with
  | nil => simp
  | cons hd tl ih =>
    by_cases hp : p hd = true
    · simp [List.filter_cons, hp, h hd hp]
      omega
    · simp only [List.filter_cons]
      rw [if_neg (by simpa using hp)]
      split
      · simp
        omega
      · exact ih

/-- C5.  For a fixed candidate list and fixed per-move scores, raising the
acceptance threshold never increases the size of the returned list, and
lowering the top-K bound never increases the number of evaluator calls. -/
theorem filter_moves_monotone (th₁ th₂ : ℤ) (top_k k₁ k₂ : Nat) (ev : Move → ℤ)
    (cands : List Move) (priors : List (Move × ℚ))
    (hth : th₁ ≤ th₂) (hk : k₁ ≤ k₂) :
    (filter_moves th₂ top_k ev cands priors).length
        ≤ (filter_moves th₁ top_k ev cands priors).length ∧
    evalCallsOf k₁ cands priors ≤ evalCallsOf k₂ cands priors := by
  constructor
  · have hmono : ((scoredOf top_k ev cands priors).filter
          (fun p => decide (th₂ ≤ p.2))).length
        ≤ ((scoredOf top_k ev cands priors).filter
          (fun p => decide (th₁ ≤ p.2))).length := by
      refine filter_length_mono _ _ _ ?_
      intro x hx
      simp at hx ⊢
      omega
    unfold filter_moves
    by_cases hs : scoredOf top_k ev cands priors = []
    · simp [hs]
    · by_cases hk2 : ((scoredOf top_k ev cands priors).filter
          (fun p => th₂ ≤ p.2)).map Prod.fst = []
      · rw [if_pos ⟨hk2, hs⟩]
        obtain ⟨p, hp, _, _⟩ := pyMax_spec (fun p : Move × ℤ => p.2) _ hs
        rw [hp]
        by_cases hk1 : ((scoredOf top_k ev cands priors).filter
            (fun p => th₁ ≤ p.2)).map Prod.fst = []
        · rw [if_pos ⟨hk1, hs⟩, hp]
        · rw [if_neg (fun hand => hk1 hand.1)]
          simp only [List.length_map, List.length_singleton]
          rcases hxx : (scoredOf top_k ev cands priors).filter
              (fun p => th₁ ≤ p.2) with _ | ⟨a, l⟩
          · exact absurd (by rw [hxx]; rfl) hk1
          · rw [hxx]
            simp
      · rw [if_neg (fun hand => hk2 hand.1)]
        by_cases hk1 : ((scoredOf top_k ev cands priors).filter
            (fun p => th₁ ≤ p.2)).map Prod.fst = []
        · exfalso
          apply hk2
          rw [List.map_eq_nil_iff] at hk1 ⊢
          rw [List.filter_eq_nil_iff] at hk1 ⊢
          intro p hp
          have h1 := hk1 p hp
          simp at h1 ⊢
          omega
        · rw [if_neg (fun hand => hk1 hand.1)]
          simpa using hmono
  · unfold evalCallsOf
    rw [List.length_take, List.length_take]
    omega

/-- Witness for C5 at concrete thresholds 0 ≤ 5 and bounds 1 ≤ 3, two
candidates scored by the identity. -/
theorem filter_moves_monotone_witness :
    (filter_moves 5 2 (fun m => (m : ℤ)) [0, 1] []).length
        ≤ (filter_moves 0 2 (fun m => (m : ℤ)) [0, 1] []).length ∧
    evalCallsOf 1 [0, 1] [] ≤ evalCallsOf 3 [0, 1] [] :=
  filter_moves_monotone 0 5 2 1 3 (fun m => (m : ℤ)) [0, 1] []
    (by decide) (by decide)

/-! ## The evaluation cache (src/stockfish_filter.py, eval_board)

`eval_board` serializes the board to its canonical FEN string, consults the
per-FEN cache, and only on a miss sends the position and a search request to
the engine, storing the reply.  The board is represented here by its
canonical serialization (a string), the engine by a deterministic score
function `engineEval` plus a counter of protocol search requests. -/

structure FilterState where
  cache : List (String × ℤ)
  requests : Nat
deriving DecidableEq

/-- Source `StockfishFilter.eval_board`. -/
def eval_board (engineEval : String → ℤ) (s : FilterState) (fen : String) :
    ℤ × FilterState :=
  match lookupA s.cache fen with
  | some v => (v, s)
  | none => (engineEval fen, ⟨setA s.cache fen (engineEval fen), s.requests + 1⟩)

/-- C7.  Evaluating the same canonical position twice returns the identical
score both times, and the second call issues zero protocol requests (it is
served from the cache). -/
theorem eval_board_cached (engineEval : String → ℤ) (s : FilterState) (fen : String) :
    (eval_board engineEval (eval_board engineEval s fen).2 fen).1
        = (eval_board engineEval s fen).1 ∧
    (eval_board engineEval (eval_board engineEval s fen).2 fen).2.requests
        = (eval_board engineEval s fen).2.requests := by
  rcases hl : lookupA s.cache fen with _ | v
  · unfold eval_board
    rw [hl]
    simp [lookupA_setA_self]
  · unfold eval_board
    rw [hl]
    simp [hl]

/-! ## The UCI protocol client (src/uci_engine.py)

A response line is modelled by its list of whitespace-separated tokens
(Python's `line.split()`).  The code's `line.startswith("info ")` and
`line.startswith("bestmove")` become tests on the first token, and the regex
search `score (cp|mate) (-?\d+)` becomes a left-to-right scan for the first
adjacent token triple of that shape; `-?\d+` and Python's `int()` are
modelled by `strToInt?` below. -/

def digitVal? (c : Char) : Option Nat :=
  if '0' ≤ c ∧ c ≤ '9' then some (c.toNat - '0'.toNat) else none

def natDigits? : List Char → Option Nat
  | [] => none
  | cs => cs.foldl (fun acc c =>
      match acc, digitVal? c with
      | some n, some d => some (n * 10 + d)
      | _, _ => none) (some 0)

/-- A token matching `-?\d+`, converted by `int(...)`; `none` otherwise. -/
def strToInt? (s : String) : Option ℤ :=
  match s.data with
  | '-' :: cs => (natDigits? cs).map (fun n => -(n : ℤ))
  | cs => (natDigits? cs).map (fun n => (n : ℤ))

def isInfoLine (l : List String) : Bool := decide (l.head? = some "info")

def isBestLine (l : List String) : Bool := decide (l.head? = some "bestmove")

/-- Regex search `score (cp|mate) (-?\d+)` over a line: the first match while
scanning the tokens left to right.  The `Bool` is `true` for a mate
annotation. -/
def scanScore : List String → Option (Bool × ℤ)
  | "score" :: kind :: num :: rest =>
    if kind = "cp" ∨ kind = "mate" then
      match strToInt? num with
      | some v => some (kind == "mate", v)
      | none => scanScore (kind :: num :: rest)
    else scanScore (kind :: num :: rest)
  | _ :: rest => scanScore rest
  | [] => none

/-- The body of the `for line in lines` loop of `UCIEngine.go_and_get`:
update `(cp_score, mate_score)` from a score annotation on an `info` line
(a mate in `v` becomes the saturating value `±100000`), and update `bestmove`
from the second token of a `bestmove` line. -/
def goStep (st : ℤ × Option ℤ × String) (l : List String) : ℤ × Option ℤ × String :=
  let st1 :=
    if isInfoLine l then
      match scanScore l with
      | some (false, v) => (v, (none : Option ℤ))
      | some (true, v) => ((if 0 < v then (100000 : ℤ) else -100000), some v)
      | none => (st.1, st.2.1)
    else (st.1, st.2.1)
  let best := if isBestLine l ∧ 2 ≤ l.length then l.getD 1 "" else st.2.2
  (st1.1, st1.2, best)

/-- Source `UCIEngine.go_and_get` applied to the response lines returned by
`_read_until("bestmove")`: returns `(cp_score, mate_score, bestmove)`
starting from the defaults `(0, None, "(none)")`. -/
def go_and_get (lines : List (List String)) : ℤ × Option ℤ × String :=
  lines.foldl goStep (0, none, "(none)")

/-- The score annotation a line contributes, if any: only progress (`info`)
lines are scanned. -/
def lineTag (l : List String) : Option (Bool × ℤ) :=
  if isInfoLine l then scanScore l else none

/-- The last score annotation among the lines. -/
def lastTag (lines : List (List String)) : Option (Bool × ℤ) :=
  (lines.filterMap lineTag).getLast?

/-- The centipawn score the design document prescribes: the last annotation
wins; a mate annotation saturates to `±100000` with the sign of the mate
distance; `0` when no annotation was seen. -/
def specCp (lines : List (List String)) : ℤ :=
  match lastTag lines with
  | none => 0
  | some (false, v) => v
  | some (true, v) => if 0 < v then 100000 else -100000

/-- The mate distance the design document prescribes: that of the last
annotation when it is a mate annotation, absent otherwise. -/
def specMate (lines : List (List String)) : Option ℤ :=
  match lastTag lines with
  | some (true, v) => some v
  | _ => none

/-- The recommended move token extracted from the terminating line: its
second token, or the placeholder when the line carries no move token. -/
def bestTokenOf (l : List String) : String :=
  if isBestLine l ∧ 2 ≤ l.length then l.getD 1 "" else "(none)"

theorem getLast?_cons_ne_nil {α : Type} (a : α) (l : List α) (h : l ≠ []) :
    (a :: l).getLast? = l.getLast? := by
  cases l with
  | nil => exact absurd rfl h
  | cons b m => exact List.getLast?_cons_cons

theorem foldl_goStep_sm (lines : List (List String)) :
    ∀ st : ℤ × Option ℤ × String,
      ((lines.foldl goStep st).1, (lines.foldl goStep st).2.1)
        = match lastTag lines with
          | none => (st.1, st.2.1)
          | some (false, v) => (v, none)
          | some (true, v) => ((if 0 < v then (100000 : ℤ) else -100000), some v) := by
  induction lines with
  | nil =>
    intro st
    simp [lastTag]
  | cons l ls ih =>
    intro st
    rw [List.foldl_cons, ih (goStep st l)]
    rcases hlt : lastTag ls with _ | ⟨b, v⟩
    · have hnil : ls.filterMap lineTag = [] :=
        List.getLast?_eq_none_iff.mp hlt
      have hl2 : lastTag (l :: ls) = lineTag l := by
        unfold lastTag
        rw [List.filterMap_cons, hnil]
        rcases lineTag l with _ | tg <;> simp
      rw [hl2]
      rcases htg : lineTag l with _ | ⟨b, v⟩
      · have : (goStep st l).1 = st.1 ∧ (goStep st l).2.1 = st.2.1 := by
          unfold goStep
          unfold lineTag at htg
          by_cases hinfo : isInfoLine l
          · rw [if_pos hinfo] at htg
            simp [hinfo, htg]
          · simp [hinfo]
        rw [this.1, this.2]
      · have : ((goStep st l).1, (goStep st l).2.1)
            = match (some (b, v) : Option (Bool × ℤ)) with
              | none => (st.1, st.2.1)
              | some (false, v) => (v, none)
              | some (true, v) => ((if 0 < v then (100000 : ℤ) else -100000), some v) := by
          unfold goStep
          unfold lineTag at htg
          by_cases hinfo : isInfoLine l
          · rw [if_pos hinfo] at htg
            cases b <;> simp [hinfo, htg]
          · rw [if_neg hinfo] at htg
            cases htg
        exact this
    · have hne : ls.filterMap lineTag ≠ [] := by
        intro h0
        unfold lastTag at hlt
        rw [h0] at hlt
        simp at hlt
      have hl2 : lastTag (l :: ls) = some (b, v) := by
        unfold lastTag at hlt ⊢
        rw [List.filterMap_cons]
        rcases lineTag l with _ | tg
        · exact hlt
        · rw [getLast?_cons_ne_nil tg _ hne]
          exact hlt
      rw [hl2]
      cases b <;> rfl

theorem foldl_goStep_best (lines : List (List String)) :
    ∀ st : ℤ × Option ℤ × String, (∀ l ∈ lines, isBestLine l = false) →
      (lines.foldl goStep st).2.2 = st.2.2 := by
  induction lines with
  | nil =>
    intro st _
    rfl
  | cons l ls ih =>
    intro st h
    rw [List.foldl_cons, ih (goStep st l) (fun x hx => h x (List.mem_cons_of_mem l hx))]
    have hbl : isBestLine l = false := h l (List.mem_cons_self l ls)
    show (if isBestLine l ∧ 2 ≤ l.length then l.getD 1 "" else st.2.2) = st.2.2
    simp [hbl]

/-- C8.  For any response-line sequence of a search request (progress lines
followed by the terminating line), the returned centipawn score comes from
the last score annotation among the progress lines, a mate annotation turning
into the saturating value `±100000` signed by who mates; the returned mate
distance is that of the last annotation when it was a mate annotation; and
the recommended move token is extracted from the terminating line. -/
theorem go_and_get_parses (progress : List (List String)) (term : List String)
    (hprog : ∀ l ∈ progress, isBestLine l = false) :
    go_and_get (progress ++ [term])
      = (specCp (progress ++ [term]), specMate (progress ++ [term]), bestTokenOf term) := by
  have hsm := foldl_goStep_sm (progress ++ [term]) (0, none, "(none)")
  have h3 : (go_and_get (progress ++ [term])).2.2 = bestTokenOf term := by
    unfold go_and_get
    rw [List.foldl_append, List.foldl_cons, List.foldl_nil]
    have hpm : (progress.foldl goStep (0, none, "(none)")).2.2 = "(none)" :=
      foldl_goStep_best progress (0, none, "(none)") hprog
    have hgp : (goStep (progress.foldl goStep (0, none, "(none)")) term).2.2
        = if isBestLine term ∧ 2 ≤ term.length then term.getD 1 ""
          else (progress.foldl goStep (0, none, "(none)")).2.2 := rfl
    rw [hgp, hpm]
    rfl
  refine Prod.ext ?_ (Prod.ext ?_ h3)
  · show (go_and_get (progress ++ [term])).1 = specCp (progress ++ [term])
    unfold go_and_get
    unfold specCp
    rcases hlt : lastTag (progress ++ [term]) with _ | ⟨b, v⟩
    · rw [hlt] at hsm
      simpa using congrArg Prod.fst hsm
    · rw [hlt] at hsm
      cases b <;> simpa using congrArg Prod.fst hsm
  · show (go_and_get (progress ++ [term])).2.1 = specMate (progress ++ [term])
    unfold go_and_get
    unfold specMate
    rcases hlt : lastTag (progress ++ [term]) with _ | ⟨b, v⟩
    · rw [hlt] at hsm
      simpa using congrArg (fun p : ℤ × Option ℤ => p.2) hsm
    · rw [hlt] at hsm
      cases b <;> simpa using congrArg (fun p : ℤ × Option ℤ => p.2) hsm

/-- Witness for C8: two progress lines (a cp annotation overwritten by a
mate-being-mated annotation) and a terminating line; the result is the
saturating negative score, the mate distance -2, and the move token. -/
theorem go_and_get_parses_witness :
    go_and_get
        ([["info", "depth", "1", "score", "cp", "13"],
          ["info", "depth", "2", "score", "mate", "-2", "nodes", "5"]]
          ++ [["bestmove", "e2e4", "ponder", "e7e5"]])
      = (-100000, some (-2), "e2e4") := by
  rw [go_and_get_parses
    [["info", "depth", "1", "score", "cp", "13"],
     ["info", "depth", "2", "score", "mate", "-2", "nodes", "5"]]
    ["bestmove", "e2e4", "ponder", "e7e5"]
    (by decide)]
  decide

/-- C10.  When no line carries a score annotation the request returns the
centipawn score 0 with mate distance absent, and when the terminating line
carries no move token the recommended move is the placeholder `"(none)"`. -/
theorem go_and_get_defaults (progress : List (List String)) (term : List String)
    (hprog : ∀ l ∈ progress, isBestLine l = false) :
    ((∀ l ∈ progress ++ [term], lineTag l = none) →
      (go_and_get (progress ++ [term])).1 = 0
        ∧ (go_and_get (progress ++ [term])).2.1 = none)
    ∧ (term.length < 2 → (go_and_get (progress ++ [term])).2.2 = "(none)") := by
  constructor
  · intro hall
    have hnil : (progress ++ [term]).filterMap lineTag = [] :=
      List.filterMap_eq_nil_iff.mpr hall
    have hlt : lastTag (progress ++ [term]) = none := by
      unfold lastTag
      rw [hnil]
      rfl
    have hsm := foldl_goStep_sm (progress ++ [term]) (0, none, "(none)")
    rw [hlt] at hsm
    unfold go_and_get
    constructor
    · simpa using congrArg Prod.fst hsm
    · simpa using congrArg (fun p : ℤ × Option ℤ => p.2) hsm
  · intro hlen
    unfold go_and_get
    rw [List.foldl_append, List.foldl_cons, List.foldl_nil]
    have hpm : (progress.foldl goStep (0, none, "(none)")).2.2 = "(none)" :=
      foldl_goStep_best progress (0, none, "(none)") hprog
    have hgp : (goStep (progress.foldl goStep (0, none, "(none)")) term).2.2
        = if isBestLine term ∧ 2 ≤ term.length then term.getD 1 ""
          else (progress.foldl goStep (0, none, "(none)")).2.2 := rfl
    rw [hgp, if_neg (fun hand => absurd hand.2 (by omega))]
    exact hpm

/-- Witness for C10: a lone terminating line `bestmove` without a move token
yields score 0, no mate distance and the placeholder move. -/
theorem go_and_get_defaults_witness :
    ((go_and_get [["bestmove"]]).1 = 0 ∧ (go_and_get [["bestmove"]]).2.1 = none)
      ∧ (go_and_get [["bestmove"]]).2.2 = "(none)" :=
  ⟨(go_and_get_defaults [] ["bestmove"] (by decide)).1 (by decide),
   (go_and_get_defaults [] ["bestmove"] (by decide)).2 (by decide)⟩

/-! ## The timed read loop (src/uci_engine.py, UCIEngine._read_until)

`_read_until(token)` repeatedly checks the elapsed wall-clock time against
the deadline (raising `TimeoutError` when exceeded), reads one line, and
returns all lines read once a line CONTAINS the token.  The model drives the
loop by the trace of lines the engine process emits, each stamped with the
elapsed time at which it becomes readable; the deadline test is applied to
that stamp.  An exhausted trace stands for a process that has reached
end-of-file: the loop then spins on empty reads until the deadline check
raises.  Substring containment of the token is modelled as token membership
among the line's whitespace tokens. -/

inductive ReadRes where
  | tmo : ReadRes
  | done (lines : List (List String)) : ReadRes
deriving DecidableEq

def read_until (token : String) (limit : ℚ) :
    List (ℚ × List String) → List (List String) → ReadRes
  | [], _ => .tmo
  | (t, l) :: rest, acc =>
    if limit < t then .tmo
    else if token ∈ l then .done (acc ++ [l])
    else read_until token limit rest (acc ++ [l])

/-- C9 (code behaviour at the failing input).  First search: the engine emits
only an `info` line, at 11s against a 10s deadline, so `_read_until`
raises `TimeoutError` — but nothing marks the client unusable.  A second
search request on the same client then reads the line `bestmove e7e5`
(emitted at 1s, e.g. the stale result of the first search) and SUCCEEDS,
contradicting the claim that every subsequent call fails until restart. -/
theorem read_until_timeout_then_success :
    read_until "bestmove" 10 [(11, ["info", "depth", "1"])] [] = ReadRes.tmo
      ∧ read_until "bestmove" 10 [(1, ["bestmove", "e7e5"])] []
          = ReadRes.done [["bestmove", "e7e5"]] := by
  constructor
  · simp [read_until]
  · simp [read_until]

end ChessHybrid
